import Mathlib

/-!
Shallow embedding of `minesweeper.py` (the `Sentence` class and the
`MinesweeperAI` inference engine) together with theorems settling the
specification claims about it.

Board cells are pairs of integers.  Python `set`s of cells become `Finset`s,
the knowledge base (a Python list of `Sentence` objects) becomes a
`List Sentence`, and the in-place mutations of the Python code become pure
state-to-state functions.  Python iterates over `set`s in an unspecified
order; wherever the code iterates over a set of cells we iterate over the
list of its elements sorted by a fixed linear order `cellLe`, which is one
admissible order (all the iterated operations are order-independent).
`random.sample(s, 1)[0]` (an arbitrary element of `s`) is modelled as the
least element of `s` in the same order, again one admissible choice.
The iteration order itself is produced by `cellsList`, a fuel-based
selection of successive minima, so that it evaluates by kernel reduction.
-/

/-- A board position `(row, column)`; Python tuples of ints. -/
abbrev Cell := ℤ × ℤ

/-- Row-major lexicographic order on cells, used to fix one concrete
iteration order for Python's unordered set iteration. -/
def cellLe (a b : Cell) : Prop :=
  a.1 < b.1 ∨ (a.1 = b.1 ∧ a.2 ≤ b.2)

instance : DecidableRel cellLe := fun a b => by
  unfold cellLe; exact inferInstance

instance : IsTrans Cell cellLe := by
  constructor; intro a b c hab hbc; unfold cellLe at *; omega

instance : IsAntisymm Cell cellLe := by
  constructor
  intro a b hab hba
  cases a; cases b
  simp only [cellLe] at hab hba
  simp only [Prod.mk.injEq]
  omega

instance : IsTotal Cell cellLe := by
  constructor; intro a b; unfold cellLe; omega

/-- The smaller of two cells in the `cellLe` order. -/
def min2 (a b : Cell) : Cell := if cellLe a b then a else b

/-- Minimum of two optional cells, `none` acting as the neutral element. -/
def optMin : Option Cell → Option Cell → Option Cell
  | none, o => o
  | some a, none => some a
  | some a, some b => some (min2 a b)

theorem min2_comm (a b : Cell) : min2 a b = min2 b a := by
  cases a; cases b
  simp only [min2, cellLe]
  split_ifs <;> simp_all [Prod.mk.injEq] <;> omega

theorem min2_assoc (a b c : Cell) : min2 (min2 a b) c = min2 a (min2 b c) := by
  cases a; cases b; cases c
  simp only [min2, cellLe]
  split_ifs <;> simp_all [Prod.mk.injEq] <;> omega

instance : Std.Commutative optMin := by
  constructor
  intro a b
  cases a <;> cases b <;> simp [optMin, min2_comm]

instance : Std.Associative optMin := by
  constructor
  intro a b c
  cases a <;> cases b <;> cases c <;> simp [optMin, min2_assoc]

/-- The least cell of a finite set in the `cellLe` order, `none` for the
empty set. -/
def cellMin (s : Finset Cell) : Option Cell := s.fold optMin none some

/-- Selection of successive minima with explicit fuel, giving a concrete,
kernel-computable iteration order for a finite set of cells. -/
def sortedCells : ℕ → Finset Cell → List Cell
  | 0, _ => []
  | n + 1, s =>
    match cellMin s with
    | none => []
    | some m => m :: sortedCells n (s.erase m)

/-- The elements of a finite set of cells listed in increasing `cellLe`
order; the order Python's set iteration is modelled by. -/
def cellsList (s : Finset Cell) : List Cell := sortedCells s.card s

/-- The `Sentence` class: a set of board cells and a count of how many of
those cells are mines (`__init__` stores the cell set and the count; the
count is a Python `int`, so an integer). -/
structure Sentence where
  cells : Finset Cell
  count : ℤ
deriving DecidableEq

/-- `Sentence.known_mines`: returns all cells if they are all mines, i.e.
when `len(self.cells) == self.count` and `self.count > 0`; otherwise `None`. -/
def Sentence.known_mines (t : Sentence) : Option (Finset Cell) :=
  if (t.cells.card : ℤ) = t.count ∧ 0 < t.count then some t.cells else none

/-- `Sentence.known_safes`: returns all cells if none is a mine, i.e. when
`self.count == 0` and `len(self.cells) > 0`; otherwise `None`. -/
def Sentence.known_safes (t : Sentence) : Option (Finset Cell) :=
  if t.count = 0 ∧ 0 < t.cells.card then some t.cells else none

/-- `Sentence.mark_mine`: if the cell is in the sentence, remove it and
decrease the count by one; otherwise leave the sentence unchanged. -/
def Sentence.mark_mine (t : Sentence) (cell : Cell) : Sentence :=
  if cell ∈ t.cells then ⟨t.cells.erase cell, t.count - 1⟩ else t

/-- `Sentence.mark_safe`: if the cell is in the sentence, remove it, the
count staying the same; otherwise leave the sentence unchanged. -/
def Sentence.mark_safe (t : Sentence) (cell : Cell) : Sentence :=
  if cell ∈ t.cells then ⟨t.cells.erase cell, t.count⟩ else t

/-- The `MinesweeperAI` engine state: board dimensions, the cells already
clicked, the cells known to be mines, the cells known to be safe, and the
list of sentences known to be true. -/
structure MinesweeperAI where
  height : ℤ
  width : ℤ
  moves_made : Finset Cell
  mines : Finset Cell
  safes : Finset Cell
  knowledge : List Sentence
deriving DecidableEq

/-- `MinesweeperAI.__init__`: empty sets of moves, mines and safes and an
empty knowledge base. -/
def MinesweeperAI.init (height width : ℤ) : MinesweeperAI :=
  ⟨height, width, ∅, ∅, ∅, []⟩

/-- `MinesweeperAI.mark_mine`: add the cell to `mines` and mark it as a mine
in every sentence of the knowledge base. -/
def MinesweeperAI.mark_mine (s : MinesweeperAI) (cell : Cell) : MinesweeperAI :=
  { s with mines := insert cell s.mines,
           knowledge := s.knowledge.map (Sentence.mark_mine · cell) }

/-- `MinesweeperAI.mark_safe`: add the cell to `safes` and mark it as safe
in every sentence of the knowledge base. -/
def MinesweeperAI.mark_safe (s : MinesweeperAI) (cell : Cell) : MinesweeperAI :=
  { s with safes := insert cell s.safes,
           knowledge := s.knowledge.map (Sentence.mark_safe · cell) }

/-- The neighbour collection loop of `add_knowledge`: all `(p, q)` with
`p` ranging over `cell[0]-1 .. cell[0]+1` and `q` over `cell[1]-1 .. cell[1]+1`
such that `p > -1 and p < height and q > -1 and q < width` and `(p, q)` is
not in `moves_made` (which at that point already contains `cell` itself). -/
def MinesweeperAI.neighbourCells (s : MinesweeperAI) (cell : Cell) : Finset Cell :=
  ((Finset.Icc (cell.1 - 1) (cell.1 + 1)) ×ˢ (Finset.Icc (cell.2 - 1) (cell.2 + 1))).filter
    (fun pq => -1 < pq.1 ∧ pq.1 < s.height ∧ -1 < pq.2 ∧ pq.2 < s.width ∧ pq ∉ s.moves_made)

/-- Steps 1-2 of `add_knowledge`: record the cell in `moves_made`, mark it
safe, collect its unexplored in-bounds neighbours, and append the sentence
`(neighbourCells, count)` to the knowledge base when the neighbour set is
non-empty (appending nothing otherwise). -/
def MinesweeperAI.addMoveAndSentence (s : MinesweeperAI) (cell : Cell) (count : ℤ) :
    MinesweeperAI :=
  let s1 : MinesweeperAI := { s with moves_made := insert cell s.moves_made }
  let s2 := s1.mark_safe cell
  let nbs := s2.neighbourCells cell
  { s2 with knowledge := s2.knowledge ++ (if 0 < nbs.card then [⟨nbs, count⟩] else []) }

/-- The body of the subset-inference double loop of `add_knowledge`: when
`totalKnowledge[i] != totalKnowledge[j]` and `totalKnowledge[i].cells` is a
subset of `totalKnowledge[j].cells`, the candidate sentence
`(K[j].cells - K[i].cells, K[j].count - K[i].count)` is appended to the
accumulated `newKnowledge` unless it already occurs there or in
`totalKnowledge`. -/
def MinesweeperAI.considerPair (K : List Sentence) (i j : ℕ) (acc2 : List Sentence) :
    List Sentence :=
  let A := K.getD i ⟨∅, 0⟩
  let B := K.getD j ⟨∅, 0⟩
  if A ≠ B ∧ A.cells ⊆ B.cells then
    let ns : Sentence := ⟨B.cells \ A.cells, B.count - A.count⟩
    if ns ∉ acc2 ∧ ns ∉ K then acc2 ++ [ns] else acc2
  else acc2

/-- The subset-inference double loop of `add_knowledge`: `i` ranges over
`range(totalLength)` and `j` over `range(i+1, totalLength)`. -/
def MinesweeperAI.newKnowledge (K : List Sentence) : List Sentence :=
  (List.range K.length).foldl (fun acc i =>
    (List.range' (i + 1) (K.length - (i + 1))).foldl
      (fun acc2 j => MinesweeperAI.considerPair K i j acc2) acc) []

/-- Step 3 of `add_knowledge`: extend the knowledge base with the derived
sentences when there are any. -/
def MinesweeperAI.inferSubsets (s : MinesweeperAI) : MinesweeperAI :=
  let nk := MinesweeperAI.newKnowledge s.knowledge
  if 0 < nk.length then { s with knowledge := s.knowledge ++ nk } else s

/-- The union of the `known_mines()` results over the knowledge base
(`knownMines = knownMines | newKnownMines` whenever the result is not `None`). -/
def MinesweeperAI.knownMinesAll (K : List Sentence) : Finset Cell :=
  K.foldl (fun acc t =>
    match t.known_mines with
    | some m => acc ∪ m
    | none => acc) ∅

/-- The union of the `known_safes()` results over the knowledge base. -/
def MinesweeperAI.knownSafesAll (K : List Sentence) : Finset Cell :=
  K.foldl (fun acc t =>
    match t.known_safes with
    | some m => acc ∪ m
    | none => acc) ∅

/-- Step 4 of `add_knowledge`: collect `knownMines` and `knownSafes` from
the current knowledge base, then call `mark_mine` on every known mine and
`mark_safe` on every known safe. -/
def MinesweeperAI.saturate (s : MinesweeperAI) : MinesweeperAI :=
  let km := MinesweeperAI.knownMinesAll s.knowledge
  let ks := MinesweeperAI.knownSafesAll s.knowledge
  let s1 := (cellsList km).foldl MinesweeperAI.mark_mine s
  (cellsList ks).foldl MinesweeperAI.mark_safe s1

/-- `MinesweeperAI.add_knowledge`: record the move and the new sentence,
derive subset-difference sentences, then saturate with the newly known
mines and safes. -/
def MinesweeperAI.add_knowledge (s : MinesweeperAI) (cell : Cell) (count : ℤ) :
    MinesweeperAI :=
  MinesweeperAI.saturate (MinesweeperAI.inferSubsets (s.addMoveAndSentence cell count))

/-- `MinesweeperAI.make_safe_move`: `None` when `safes - moves_made` is
empty, otherwise an element of that set. -/
def MinesweeperAI.make_safe_move (s : MinesweeperAI) : Option Cell :=
  let safeNotMade := s.safes \ s.moves_made
  if safeNotMade.card = 0 then none
  else (cellsList safeNotMade).head?

/-- The `allMoves` set of `make_random_move`: every `(i, j)` with
`i` in `range(height)` and `j` in `range(width)`. -/
def MinesweeperAI.allMoves (s : MinesweeperAI) : Finset Cell :=
  (Finset.Ico 0 s.height) ×ˢ (Finset.Ico 0 s.width)

/-- `MinesweeperAI.make_random_move`: `None` when no board position outside
`moves_made` and `mines` remains, otherwise such a position. -/
def MinesweeperAI.make_random_move (s : MinesweeperAI) : Option Cell :=
  let movesAvailable := (s.allMoves \ s.moves_made) \ s.mines
  if movesAvailable.card = 0 then none
  else (cellsList movesAvailable).head?

/-- `Minesweeper.nearby_mines` for the board whose mine set is `M`: the
number of mines within one row and one column of `cell`, the cell itself
excluded, counting only in-bounds positions. -/
def Minesweeper.nearby_mines (M : Finset Cell) (height width : ℤ) (cell : Cell) : ℕ :=
  (((Finset.Icc (cell.1 - 1) (cell.1 + 1)) ×ˢ (Finset.Icc (cell.2 - 1) (cell.2 + 1))).filter
    (fun pq => pq ≠ cell ∧ 0 ≤ pq.1 ∧ pq.1 < height ∧ 0 ≤ pq.2 ∧ pq.2 < width ∧ pq ∈ M)).card

/-- The eight grid-adjacent neighbours of a cell, following the
specification's wording (the cell itself excluded). -/
def adjacent8 (cell : Cell) : Finset Cell :=
  {(cell.1 - 1, cell.2 - 1), (cell.1 - 1, cell.2), (cell.1 - 1, cell.2 + 1),
   (cell.1, cell.2 - 1), (cell.1, cell.2 + 1),
   (cell.1 + 1, cell.2 - 1), (cell.1 + 1, cell.2), (cell.1 + 1, cell.2 + 1)}

/-- The specification's description of the sentence cell set built by
`add_knowledge`: the 8 grid-adjacent neighbours of the revealed cell that
lie within board bounds and are not already in `moves_made` (the revealed
cell itself having just been recorded there). -/
def specNeighbours (s : MinesweeperAI) (cell : Cell) : Finset Cell :=
  (adjacent8 cell).filter
    (fun pq => 0 ≤ pq.1 ∧ pq.1 < s.height ∧ 0 ≤ pq.2 ∧ pq.2 < s.width ∧ pq ∉ s.moves_made)

/-- A sentence is satisfied by a mine set `M` when exactly `count` of its
cells lie in `M`. -/
def SatBy (M : Finset Cell) (t : Sentence) : Prop :=
  ((t.cells ∩ M).card : ℤ) = t.count

/-- Consistency of an engine state with a mine set `M`: every sentence of
the knowledge base is satisfied by `M`, every known mine is in `M`, and no
known-safe or already-played cell is in `M`. -/
def Consistent (M : Finset Cell) (s : MinesweeperAI) : Prop :=
  (∀ t ∈ s.knowledge, SatBy M t) ∧ s.mines ⊆ M ∧
    Disjoint s.safes M ∧ Disjoint s.moves_made M

/-- Engine states reachable from a fresh engine by operation calls that are
consistent with the fixed mine set `M`: `mark_mine` only on mines,
`mark_safe` only on non-mines, and `add_knowledge` only on a non-mine cell
with the count the board would report for it (`Minesweeper.nearby_mines`). -/
inductive ConsReachable (M : Finset Cell) : MinesweeperAI → Prop where
  | init : ∀ height width, ConsReachable M (MinesweeperAI.init height width)
  | mark_safe : ∀ s c, ConsReachable M s → c ∉ M → ConsReachable M (s.mark_safe c)
  | mark_mine : ∀ s c, ConsReachable M s → c ∈ M → ConsReachable M (s.mark_mine c)
  | add_knowledge : ∀ s c n, ConsReachable M s → c ∉ M →
      n = (Minesweeper.nearby_mines M s.height s.width c : ℤ) →
      ConsReachable M (s.add_knowledge c n)

/-- Engine states reachable from a fresh engine by arbitrary sequences of
the three mutating operations. -/
inductive Reachable : MinesweeperAI → Prop where
  | init : ∀ height width, Reachable (MinesweeperAI.init height width)
  | mark_safe : ∀ s c, Reachable s → Reachable (s.mark_safe c)
  | mark_mine : ∀ s c, Reachable s → Reachable (s.mark_mine c)
  | add_knowledge : ∀ s c n, Reachable s → Reachable (s.add_knowledge c n)

/-- A 1x1-board state whose knowledge base holds `B = {c1,c2,c3,c4} = 2`
before `A = {c1,c2,c3} = 1` (the superset first). -/
def supersetFirstState : MinesweeperAI :=
  ⟨1, 1, ∅, ∅, ∅,
   [⟨{(0, 1), (1, 0), (1, 1), (2, 2)}, 2⟩, ⟨{(0, 1), (1, 0), (1, 1)}, 1⟩]⟩

/-- The same knowledge base with the subset `A = {c1,c2,c3} = 1` first. -/
def subsetFirstState : MinesweeperAI :=
  ⟨1, 1, ∅, ∅, ∅,
   [⟨{(0, 1), (1, 0), (1, 1)}, 1⟩, ⟨{(0, 1), (1, 0), (1, 1), (2, 2)}, 2⟩]⟩

/-- A 2x2-board engine after `mark_mine((0,1))` followed by
`add_knowledge((0,0), 1)`. -/
def mineThenRevealState : MinesweeperAI :=
  ((MinesweeperAI.init 2 2).mark_mine (0, 1)).add_knowledge (0, 0) 1

/-- A 2x2-board engine after `mark_mine((0,0))` followed by
`mark_safe((0,0))`. -/
def conflictState : MinesweeperAI :=
  ((MinesweeperAI.init 2 2).mark_mine (0, 0)).mark_safe (0, 0)

/-- A 2x2-board engine after the inconsistent call `add_knowledge((0,0), 5)`. -/
def overCountState : MinesweeperAI :=
  (MinesweeperAI.init 2 2).add_knowledge (0, 0) 5

/-- A 1x1-board state with `(0,0)` known safe and not yet played. -/
def safeAvailableState : MinesweeperAI :=
  ⟨1, 1, ∅, ∅, {(0, 0)}, []⟩

/-- Folding a list preserves any property that each step preserves. -/
theorem foldl_keep {α β : Type _} (f : α → β → α) (P : α → Prop) :
    ∀ (L : List β), (∀ a b, b ∈ L → P a → P (f a b)) → ∀ a, P a → P (L.foldl f a) := by
  intro L
  induction L with
  | nil => intro _ a ha; exact ha
  | cons x xs ih =>
    intro hf a ha
    simp only [List.foldl_cons]
    exact ih (fun a b hb => hf a b (List.mem_cons_of_mem _ hb)) (f a x)
      (hf a x (List.mem_cons_self _ _) ha)

/-- Folding a list establishes any step-preserved property that some list
element establishes. -/
theorem foldl_reach {α β : Type _} (f : α → β → α) (P : α → Prop)
    (hpres : ∀ a b, P a → P (f a b)) (b0 : β) (hest : ∀ a, P (f a b0)) :
    ∀ (L : List β) (a : α), b0 ∈ L → P (L.foldl f a) := by
  intro L
  induction L with
  | nil => intro a hb; cases hb
  | cons x xs ih =>
    intro a hb
    simp only [List.foldl_cons]
    rcases List.mem_cons.mp hb with h | h
    · subst h
      exact foldl_keep f P xs (fun a b _ => hpres a b) _ (hest a)
    · exact ih _ h

/-- Marking a cell safe removes it from the sentence. -/
theorem Sentence.mark_safe_not_mem (t : Sentence) (c : Cell) : c ∉ (t.mark_safe c).cells := by
  unfold Sentence.mark_safe
  split <;> simp_all

/-- Marking a cell as a mine removes it from the sentence. -/
theorem Sentence.mark_mine_not_mem (t : Sentence) (c : Cell) : c ∉ (t.mark_mine c).cells := by
  unfold Sentence.mark_mine
  split <;> simp_all

/-- Marking a cell safe only shrinks the sentence's cell set. -/
theorem Sentence.mark_safe_subset (t : Sentence) (c : Cell) :
    (t.mark_safe c).cells ⊆ t.cells := by
  unfold Sentence.mark_safe
  split
  · exact Finset.erase_subset _ _
  · exact Finset.Subset.refl _

/-- Marking a mine only shrinks the sentence's cell set. -/
theorem Sentence.mark_mine_subset (t : Sentence) (c : Cell) :
    (t.mark_mine c).cells ⊆ t.cells := by
  unfold Sentence.mark_mine
  split
  · exact Finset.erase_subset _ _
  · exact Finset.Subset.refl _

/-- `Sentence.mark_safe` is idempotent. -/
theorem Sentence.mark_safe_idem (t : Sentence) (c : Cell) :
    (t.mark_safe c).mark_safe c = t.mark_safe c := by
  by_cases h : c ∈ t.cells <;> simp [Sentence.mark_safe, h]

/-- `Sentence.mark_mine` is idempotent. -/
theorem Sentence.mark_mine_idem (t : Sentence) (c : Cell) :
    (t.mark_mine c).mark_mine c = t.mark_mine c := by
  by_cases h : c ∈ t.cells <;> simp [Sentence.mark_mine, h]

/-- `mark_mine` leaves `moves_made` and `safes` unchanged and inserts the
cell into `mines`. -/
theorem MinesweeperAI.mark_mine_fields (s : MinesweeperAI) (c : Cell) :
    (s.mark_mine c).moves_made = s.moves_made ∧ (s.mark_mine c).safes = s.safes ∧
      (s.mark_mine c).mines = insert c s.mines ∧ (s.mark_mine c).height = s.height ∧
      (s.mark_mine c).width = s.width ∧
      (s.mark_mine c).knowledge = s.knowledge.map (Sentence.mark_mine · c) :=
  ⟨rfl, rfl, rfl, rfl, rfl, rfl⟩

/-- `mark_safe` leaves `moves_made` and `mines` unchanged and inserts the
cell into `safes`. -/
theorem MinesweeperAI.mark_safe_fields (s : MinesweeperAI) (c : Cell) :
    (s.mark_safe c).moves_made = s.moves_made ∧ (s.mark_safe c).mines = s.mines ∧
      (s.mark_safe c).safes = insert c s.safes ∧ (s.mark_safe c).height = s.height ∧
      (s.mark_safe c).width = s.width ∧
      (s.mark_safe c).knowledge = s.knowledge.map (Sentence.mark_safe · c) :=
  ⟨rfl, rfl, rfl, rfl, rfl, rfl⟩

/-- `inferSubsets` unconditionally appends the derived sentences (appending
an empty list is the identity). -/
theorem MinesweeperAI.inferSubsets_eq (s : MinesweeperAI) :
    s.inferSubsets = { s with knowledge := s.knowledge ++ MinesweeperAI.newKnowledge s.knowledge } := by
  by_cases h : 0 < (MinesweeperAI.newKnowledge s.knowledge).length
  · simp [MinesweeperAI.inferSubsets, h]
  · have hnil : MinesweeperAI.newKnowledge s.knowledge = [] :=
      List.eq_nil_of_length_eq_zero (Nat.eq_zero_of_not_pos h)
    simp [MinesweeperAI.inferSubsets, hnil]

/-- `inferSubsets` only changes the knowledge base. -/
theorem MinesweeperAI.inferSubsets_fields (s : MinesweeperAI) :
    (s.inferSubsets).moves_made = s.moves_made ∧ (s.inferSubsets).mines = s.mines ∧
      (s.inferSubsets).safes = s.safes ∧ (s.inferSubsets).height = s.height ∧
      (s.inferSubsets).width = s.width := by
  rw [MinesweeperAI.inferSubsets_eq]
  exact ⟨rfl, rfl, rfl, rfl, rfl⟩

/-- Folding `mark_mine` over a list of cells leaves `moves_made` and
`safes` unchanged. -/
theorem MinesweeperAI.foldl_mark_mine_fields (L : List Cell) (s : MinesweeperAI) :
    (L.foldl MinesweeperAI.mark_mine s).moves_made = s.moves_made ∧
      (L.foldl MinesweeperAI.mark_mine s).safes = s.safes := by
  induction L generalizing s with
  | nil => exact ⟨rfl, rfl⟩
  | cons x xs ih =>
    simp only [List.foldl_cons]
    exact (ih (s.mark_mine x))

/-- Folding `mark_safe` over a list of cells leaves `moves_made` and
`mines` unchanged. -/
theorem MinesweeperAI.foldl_mark_safe_fields (L : List Cell) (s : MinesweeperAI) :
    (L.foldl MinesweeperAI.mark_safe s).moves_made = s.moves_made ∧
      (L.foldl MinesweeperAI.mark_safe s).mines = s.mines := by
  induction L generalizing s with
  | nil => exact ⟨rfl, rfl⟩
  | cons x xs ih =>
    simp only [List.foldl_cons]
    exact (ih (s.mark_safe x))

/-- `saturate` spelled out: first the `mark_mine` loop over the collected
known mines, then the `mark_safe` loop over the collected known safes. -/
theorem MinesweeperAI.saturate_eq (s : MinesweeperAI) :
    s.saturate = (cellsList (MinesweeperAI.knownSafesAll s.knowledge)).foldl
      MinesweeperAI.mark_safe
      ((cellsList (MinesweeperAI.knownMinesAll s.knowledge)).foldl
        MinesweeperAI.mark_mine s) := rfl

/-- Folding `mark_safe` over a list of cells only adds to `safes`. -/
theorem MinesweeperAI.foldl_mark_safe_safes_mono (L : List Cell) (s : MinesweeperAI) :
    s.safes ⊆ (L.foldl MinesweeperAI.mark_safe s).safes := by
  induction L generalizing s with
  | nil => exact Finset.Subset.refl _
  | cons x xs ih =>
    simp only [List.foldl_cons]
    exact Finset.Subset.trans (Finset.subset_insert _ _) (ih (s.mark_safe x))

/-- Folding `mark_mine` over a list of cells only adds to `mines`. -/
theorem MinesweeperAI.foldl_mark_mine_mines_mono (L : List Cell) (s : MinesweeperAI) :
    s.mines ⊆ (L.foldl MinesweeperAI.mark_mine s).mines := by
  induction L generalizing s with
  | nil => exact Finset.Subset.refl _
  | cons x xs ih =>
    simp only [List.foldl_cons]
    exact Finset.Subset.trans (Finset.subset_insert _ _) (ih (s.mark_mine x))

/-- `saturate` leaves `moves_made` unchanged. -/
theorem MinesweeperAI.saturate_moves_made (s : MinesweeperAI) :
    (s.saturate).moves_made = s.moves_made := by
  rw [MinesweeperAI.saturate_eq, (MinesweeperAI.foldl_mark_safe_fields _ _).1,
    (MinesweeperAI.foldl_mark_mine_fields _ _).1]

/-- `saturate` only adds to `safes`. -/
theorem MinesweeperAI.saturate_safes_mono (s : MinesweeperAI) :
    s.safes ⊆ (s.saturate).safes := by
  rw [MinesweeperAI.saturate_eq]
  refine Finset.Subset.trans ?_ (MinesweeperAI.foldl_mark_safe_safes_mono _ _)
  rw [(MinesweeperAI.foldl_mark_mine_fields _ _).2]

/-- `saturate` only adds to `mines`. -/
theorem MinesweeperAI.saturate_mines_mono (s : MinesweeperAI) :
    s.mines ⊆ (s.saturate).mines := by
  rw [MinesweeperAI.saturate_eq]
  have h2 := (MinesweeperAI.foldl_mark_safe_fields
    (cellsList (MinesweeperAI.knownSafesAll s.knowledge))
    ((cellsList (MinesweeperAI.knownMinesAll s.knowledge)).foldl
      MinesweeperAI.mark_mine s)).2
  rw [h2]
  exact MinesweeperAI.foldl_mark_mine_mines_mono _ _

/-- `addMoveAndSentence` spelled out: the move is recorded, the cell marked
safe in `safes` and purged from every sentence, and the neighbour sentence
appended exactly when its cell set is non-empty. -/
theorem MinesweeperAI.addMoveAndSentence_eq (s : MinesweeperAI) (cell : Cell) (count : ℤ) :
    s.addMoveAndSentence cell count =
      { s with moves_made := insert cell s.moves_made,
               safes := insert cell s.safes,
               knowledge := s.knowledge.map (Sentence.mark_safe · cell) ++
                 (if 0 < (MinesweeperAI.neighbourCells
                     { s with moves_made := insert cell s.moves_made } cell).card then
                   [⟨MinesweeperAI.neighbourCells
                       { s with moves_made := insert cell s.moves_made } cell, count⟩]
                  else []) } := by
  rfl

/-- `addMoveAndSentence` records the move. -/
theorem MinesweeperAI.addMoveAndSentence_fields (s : MinesweeperAI) (cell : Cell) (count : ℤ) :
    (s.addMoveAndSentence cell count).moves_made = insert cell s.moves_made ∧
      (s.addMoveAndSentence cell count).safes = insert cell s.safes ∧
      (s.addMoveAndSentence cell count).mines = s.mines ∧
      (s.addMoveAndSentence cell count).height = s.height ∧
      (s.addMoveAndSentence cell count).width = s.width := by
  rw [MinesweeperAI.addMoveAndSentence_eq]
  exact ⟨rfl, rfl, rfl, rfl, rfl⟩

/-- `add_knowledge` is the composition of its three phases. -/
theorem MinesweeperAI.add_knowledge_eq (s : MinesweeperAI) (cell : Cell) (count : ℤ) :
    s.add_knowledge cell count =
      MinesweeperAI.saturate
        (MinesweeperAI.inferSubsets (s.addMoveAndSentence cell count)) := rfl

/-- `add_knowledge` records exactly the revealed cell in `moves_made`. -/
theorem MinesweeperAI.add_knowledge_moves_made (s : MinesweeperAI) (cell : Cell) (count : ℤ) :
    (s.add_knowledge cell count).moves_made = insert cell s.moves_made := by
  unfold MinesweeperAI.add_knowledge
  rw [MinesweeperAI.saturate_moves_made, (MinesweeperAI.inferSubsets_fields _).1,
    (MinesweeperAI.addMoveAndSentence_fields _ _ _).1]

/-- `add_knowledge` marks the revealed cell safe and never removes safes. -/
theorem MinesweeperAI.add_knowledge_safes_mono (s : MinesweeperAI) (cell : Cell) (count : ℤ) :
    insert cell s.safes ⊆ (s.add_knowledge cell count).safes := by
  unfold MinesweeperAI.add_knowledge
  have h1 : insert cell s.safes =
      (MinesweeperAI.inferSubsets (s.addMoveAndSentence cell count)).safes := by
    rw [(MinesweeperAI.inferSubsets_fields _).2.2.1,
      (MinesweeperAI.addMoveAndSentence_fields _ _ _).2.1]
  rw [h1]
  exact MinesweeperAI.saturate_safes_mono _

/-- Marking the same cell safe twice in a knowledge list is the same as
marking it once. -/
theorem map_sentence_mark_safe_idem (k : List Sentence) (c : Cell) :
    (k.map (Sentence.mark_safe · c)).map (Sentence.mark_safe · c) =
      k.map (Sentence.mark_safe · c) := by
  induction k with
  | nil => rfl
  | cons t ts ih => simp only [List.map_cons, Sentence.mark_safe_idem, ih]

/-- Marking the same cell as a mine twice in a knowledge list is the same
as marking it once. -/
theorem map_sentence_mark_mine_idem (k : List Sentence) (c : Cell) :
    (k.map (Sentence.mark_mine · c)).map (Sentence.mark_mine · c) =
      k.map (Sentence.mark_mine · c) := by
  induction k with
  | nil => rfl
  | cons t ts ih => simp only [List.map_cons, Sentence.mark_mine_idem, ih]

/-- Claim C9: `mark_safe` and `mark_mine` are idempotent on the whole
engine state. -/
theorem claim_C9 (s : MinesweeperAI) (c : Cell) :
    (s.mark_safe c).mark_safe c = s.mark_safe c ∧
      (s.mark_mine c).mark_mine c = s.mark_mine c := by
  cases s with
  | mk h w mm mi sa k =>
    constructor
    · simp only [MinesweeperAI.mark_safe]
      rw [MinesweeperAI.mk.injEq]
      exact ⟨rfl, rfl, rfl, rfl, Finset.insert_idem _ _, map_sentence_mark_safe_idem k c⟩
    · simp only [MinesweeperAI.mark_mine]
      rw [MinesweeperAI.mk.injEq]
      exact ⟨rfl, rfl, rfl, Finset.insert_idem _ _, rfl, map_sentence_mark_mine_idem k c⟩

/-- An in-range `getD` is a member of the list. -/
theorem getD_mem_of_lt {α : Type _} {l : List α} {i : ℕ} (h : i < l.length) (d : α) :
    l.getD i d ∈ l := by
  rw [List.getD_eq_getElem?_getD, List.getElem?_eq_getElem h]
  exact List.get_mem _ _ _

/-- The loop body of the subset inference only appends to its accumulator. -/
theorem considerPair_mono (K : List Sentence) (i j : ℕ) (acc : List Sentence) (x : Sentence)
    (hx : x ∈ acc) : x ∈ MinesweeperAI.considerPair K i j acc := by
  unfold MinesweeperAI.considerPair
  dsimp only
  split
  · split
    · exact List.mem_append_left _ hx
    · exact hx
  · exact hx

/-- Every sentence produced by the subset-inference loop is the difference
of two sentences of the scanned knowledge base, the first a cell-subset of
the second. -/
theorem mem_newKnowledge (K : List Sentence) :
    ∀ x ∈ MinesweeperAI.newKnowledge K,
      ∃ A B, A ∈ K ∧ B ∈ K ∧ A.cells ⊆ B.cells ∧ A ≠ B ∧
        x = ⟨B.cells \ A.cells, B.count - A.count⟩ := by
  unfold MinesweeperAI.newKnowledge
  refine foldl_keep _
    (fun acc => ∀ x ∈ acc,
      ∃ A B, A ∈ K ∧ B ∈ K ∧ A.cells ⊆ B.cells ∧ A ≠ B ∧
        x = (⟨B.cells \ A.cells, B.count - A.count⟩ : Sentence))
    (List.range K.length) ?_ [] (by intro x hx; cases hx)
  intro acc i hi hacc
  have hi' : i < K.length := List.mem_range.mp hi
  refine foldl_keep _
    (fun acc => ∀ x ∈ acc,
      ∃ A B, A ∈ K ∧ B ∈ K ∧ A.cells ⊆ B.cells ∧ A ≠ B ∧
        x = (⟨B.cells \ A.cells, B.count - A.count⟩ : Sentence))
    (List.range' (i + 1) (K.length - (i + 1))) ?_ acc hacc
  intro acc2 j hj hacc2
  have hj' : j < K.length := by
    have := (List.mem_range'_1.mp hj).2
    omega
  intro x hxp
  unfold MinesweeperAI.considerPair at hxp
  dsimp only at hxp
  split at hxp
  case isTrue hcond =>
    split at hxp
    case isTrue hmem =>
      rcases List.mem_append.mp hxp with h | h
      · exact hacc2 x h
      · rcases List.mem_singleton.mp h with rfl
        exact ⟨K.getD i ⟨∅, 0⟩, K.getD j ⟨∅, 0⟩, getD_mem_of_lt hi' _,
          getD_mem_of_lt hj' _, hcond.2, hcond.1, rfl⟩
    case isFalse hmem => exact hacc2 x hxp
  case isFalse hcond => exact hacc2 x hxp

/-- Once a cell is absent from every sentence, marking any cell as a mine
keeps it absent. -/
theorem not_mem_map_mark_mine (k : List Sentence) (c x : Cell)
    (h : ∀ t ∈ k, c ∉ t.cells) :
    ∀ t ∈ k.map (Sentence.mark_mine · x), c ∉ t.cells := by
  intro t ht
  rcases List.mem_map.mp ht with ⟨t0, ht0, rfl⟩
  exact fun hc => h t0 ht0 (Sentence.mark_mine_subset t0 x hc)

/-- Once a cell is absent from every sentence, marking any cell safe keeps
it absent. -/
theorem not_mem_map_mark_safe (k : List Sentence) (c x : Cell)
    (h : ∀ t ∈ k, c ∉ t.cells) :
    ∀ t ∈ k.map (Sentence.mark_safe · x), c ∉ t.cells := by
  intro t ht
  rcases List.mem_map.mp ht with ⟨t0, ht0, rfl⟩
  exact fun hc => h t0 ht0 (Sentence.mark_safe_subset t0 x hc)

/-- The saturation pass never reintroduces a cell into a sentence. -/
theorem saturate_not_mem (s : MinesweeperAI) (c : Cell)
    (h : ∀ t ∈ s.knowledge, c ∉ t.cells) :
    ∀ t ∈ (s.saturate).knowledge, c ∉ t.cells := by
  rw [MinesweeperAI.saturate_eq]
  refine foldl_keep MinesweeperAI.mark_safe (fun st => ∀ t ∈ st.knowledge, c ∉ t.cells)
    _ (fun a b _ hb => not_mem_map_mark_safe a.knowledge c b hb) _ ?_
  exact foldl_keep MinesweeperAI.mark_mine (fun st => ∀ t ∈ st.knowledge, c ∉ t.cells)
    _ (fun a b _ hb => not_mem_map_mark_mine a.knowledge c b hb) _ h

/-- The subset-inference step never reintroduces a cell into a sentence. -/
theorem inferSubsets_not_mem (s : MinesweeperAI) (c : Cell)
    (h : ∀ t ∈ s.knowledge, c ∉ t.cells) :
    ∀ t ∈ (s.inferSubsets).knowledge, c ∉ t.cells := by
  rw [MinesweeperAI.inferSubsets_eq]
  intro t ht
  rcases List.mem_append.mp ht with h1 | h2
  · exact h t h1
  · rcases mem_newKnowledge _ t h2 with ⟨A, B, _, hB, _, _, rfl⟩
    intro hc
    exact h B hB (Finset.sdiff_subset hc)

/-- The revealed cell never occurs in the neighbour set built for it,
since it has just been recorded in `moves_made`. -/
theorem cell_not_mem_neighbourCells (s : MinesweeperAI) (cell : Cell)
    (h : cell ∈ s.moves_made) : cell ∉ s.neighbourCells cell := by
  unfold MinesweeperAI.neighbourCells
  intro hc
  exact ((Finset.mem_filter.mp hc).2).2.2.2.2 h

/-- Claim C2, amended: after `mark_mine(cell)` or `mark_safe(cell)` the
marked cell occurs in no sentence, and after `add_knowledge(cell, count)`
the revealed cell occurs in no sentence; cells of `safes` or `mines` other
than these are not purged by `add_knowledge`, whose new sentence filters
its neighbours only against `moves_made`. -/
theorem claim_C2_amended (s : MinesweeperAI) (c : Cell) (count : ℤ) :
    (∀ t ∈ (s.mark_mine c).knowledge, c ∉ t.cells) ∧
      (∀ t ∈ (s.mark_safe c).knowledge, c ∉ t.cells) ∧
      (∀ t ∈ (s.add_knowledge c count).knowledge, c ∉ t.cells) := by
  refine ⟨?_, ?_, ?_⟩
  · intro t ht
    rcases List.mem_map.mp ht with ⟨t0, _, rfl⟩
    exact Sentence.mark_mine_not_mem t0 c
  · intro t ht
    rcases List.mem_map.mp ht with ⟨t0, _, rfl⟩
    exact Sentence.mark_safe_not_mem t0 c
  · unfold MinesweeperAI.add_knowledge
    refine saturate_not_mem _ _ (inferSubsets_not_mem _ _ ?_)
    rw [MinesweeperAI.addMoveAndSentence_eq]
    intro t ht
    dsimp only at ht
    rcases List.mem_append.mp ht with h1 | h2
    · rcases List.mem_map.mp h1 with ⟨t0, _, rfl⟩
      exact Sentence.mark_safe_not_mem t0 c
    · split at h2
      case isTrue =>
        rcases List.mem_singleton.mp h2 with rfl
        exact cell_not_mem_neighbourCells _ c (Finset.mem_insert_self _ _)
      case isFalse => cases h2

/-- Claim C2 as stated is false: after `mark_mine((0,1))` and then
`add_knowledge((0,0), 1)` on a 2x2 board, the newly created sentence still
contains the known mine `(0,1)`. -/
theorem claim_C2_counterexample :
    ¬ (∀ t ∈ mineThenRevealState.knowledge, ∀ x ∈ t.cells,
        x ∉ mineThenRevealState.safes ∧ x ∉ mineThenRevealState.mines) := by
  decide

/-- Witness for the amended claim C2 at a concrete state. -/
theorem claim_C2_witness :
    (⟨{(1, 0)}, 0⟩ : Sentence) ∈
        ((⟨2, 2, ∅, ∅, ∅, [⟨{(0, 0), (1, 0)}, 1⟩]⟩ :
          MinesweeperAI).mark_mine (0, 0)).knowledge ∧
      ((0, 0) : Cell) ∉ (⟨{(1, 0)}, 0⟩ : Sentence).cells :=
  ⟨by decide,
   (claim_C2_amended ⟨2, 2, ∅, ∅, ∅, [⟨{(0, 0), (1, 0)}, 1⟩]⟩ (0, 0) 0).1
     ⟨{(1, 0)}, 0⟩ (by decide)⟩

/-- The selected minimum of a finite set of cells is one of its elements. -/
theorem cellMin_mem : ∀ {s : Finset Cell} {m : Cell}, cellMin s = some m → m ∈ s := by
  intro s
  induction s using Finset.induction_on with
  | empty => intro m h; simp [cellMin] at h
  | @insert a s ha ih =>
    intro m h
    rw [cellMin, Finset.fold_insert ha] at h
    rw [show s.fold optMin none some = cellMin s from rfl] at h
    cases hc : cellMin s with
    | none =>
      rw [hc] at h
      simp only [optMin, Option.some.injEq] at h
      subst h
      exact Finset.mem_insert_self _ _
    | some b =>
      rw [hc] at h
      simp only [optMin, Option.some.injEq] at h
      subst h
      unfold min2
      split
      · exact Finset.mem_insert_self _ _
      · exact Finset.mem_insert_of_mem (ih hc)

/-- Only the empty set of cells has no selected minimum. -/
theorem cellMin_eq_none : ∀ {s : Finset Cell}, cellMin s = none → s = ∅ := by
  intro s
  induction s using Finset.induction_on with
  | empty => intro _; rfl
  | @insert a s ha _ =>
    intro h
    exfalso
    rw [cellMin, Finset.fold_insert ha] at h
    cases hc : s.fold optMin none some <;> rw [hc] at h <;> simp [optMin] at h

/-- With enough fuel, the selection of successive minima lists exactly the
elements of the set. -/
theorem mem_sortedCells :
    ∀ (n : ℕ) (s : Finset Cell), s.card ≤ n → ∀ x, (x ∈ sortedCells n s ↔ x ∈ s) := by
  intro n
  induction n with
  | zero =>
    intro s hs x
    rw [Nat.le_zero, Finset.card_eq_zero] at hs
    subst hs
    simp [sortedCells]
  | succ n ih =>
    intro s hs x
    rw [sortedCells]
    cases hc : cellMin s with
    | none =>
      rw [cellMin_eq_none hc]
      simp
    | some m =>
      have hm : m ∈ s := cellMin_mem hc
      simp only [List.mem_cons]
      rw [ih (s.erase m) (by rw [Finset.card_erase_of_mem hm]; omega) x]
      constructor
      · rintro (rfl | hx)
        · exact hm
        · exact Finset.mem_of_mem_erase hx
      · intro hx
        by_cases hxm : x = m
        · exact Or.inl hxm
        · exact Or.inr (Finset.mem_erase.mpr ⟨hxm, hx⟩)

/-- `cellsList` lists exactly the elements of the set. -/
theorem mem_cellsList (s : Finset Cell) (x : Cell) : x ∈ cellsList s ↔ x ∈ s :=
  mem_sortedCells s.card s (le_refl _) x

/-- A sentence's `known_mines` result is contained in the collected
`knownMines` union. -/
theorem subset_knownMinesAll (K : List Sentence) (t : Sentence) (m : Finset Cell)
    (ht : t ∈ K) (hm : t.known_mines = some m) :
    m ⊆ MinesweeperAI.knownMinesAll K := by
  unfold MinesweeperAI.knownMinesAll
  refine foldl_reach _ (fun acc => m ⊆ acc) ?_ t ?_ K ∅ ht
  · intro a b hab
    cases hb : b.known_mines with
    | none => simpa [hb] using hab
    | some m2 =>
      simp only [hb]
      exact hab.trans Finset.subset_union_left
  · intro a
    simp only [hm]
    exact Finset.subset_union_right

/-- A sentence's `known_safes` result is contained in the collected
`knownSafes` union. -/
theorem subset_knownSafesAll (K : List Sentence) (t : Sentence) (m : Finset Cell)
    (ht : t ∈ K) (hm : t.known_safes = some m) :
    m ⊆ MinesweeperAI.knownSafesAll K := by
  unfold MinesweeperAI.knownSafesAll
  refine foldl_reach _ (fun acc => m ⊆ acc) ?_ t ?_ K ∅ ht
  · intro a b hab
    cases hb : b.known_safes with
    | none => simpa [hb] using hab
    | some m2 =>
      simp only [hb]
      exact hab.trans Finset.subset_union_left
  · intro a
    simp only [hm]
    exact Finset.subset_union_right

/-- Every collected known mine ends up in `mines` after the saturation
pass. -/
theorem knownMinesAll_subset_saturate (s : MinesweeperAI) :
    MinesweeperAI.knownMinesAll s.knowledge ⊆ (s.saturate).mines := by
  rw [MinesweeperAI.saturate_eq, Finset.subset_iff]
  intro x hx
  rw [(MinesweeperAI.foldl_mark_safe_fields _ _).2]
  refine foldl_reach MinesweeperAI.mark_mine (fun st => x ∈ st.mines)
    (fun a b hb => Finset.mem_insert_of_mem hb) x
    (fun a => Finset.mem_insert_self _ _) _ _ ((mem_cellsList _ x).mpr hx)

/-- Every collected known safe ends up in `safes` after the saturation
pass. -/
theorem knownSafesAll_subset_saturate (s : MinesweeperAI) :
    MinesweeperAI.knownSafesAll s.knowledge ⊆ (s.saturate).safes := by
  rw [MinesweeperAI.saturate_eq, Finset.subset_iff]
  intro x hx
  refine foldl_reach MinesweeperAI.mark_safe (fun st => x ∈ st.safes)
    (fun a b hb => Finset.mem_insert_of_mem hb) x
    (fun a => Finset.mem_insert_self _ _) _ _ ((mem_cellsList _ x).mpr hx)

/-- A cell reported by some sentence's `known_mines` is in `mines` after
the saturation pass. -/
theorem mem_saturate_mines_of_known (s' : MinesweeperAI) (t : Sentence) (m : Finset Cell)
    (x : Cell) (ht : t ∈ s'.knowledge) (hm : t.known_mines = some m) (hx : x ∈ m) :
    x ∈ s'.saturate.mines :=
  Finset.mem_of_subset (knownMinesAll_subset_saturate s')
    (Finset.mem_of_subset (subset_knownMinesAll _ _ _ ht hm) hx)

/-- A cell reported by some sentence's `known_safes` is in `safes` after
the saturation pass. -/
theorem mem_saturate_safes_of_known (s' : MinesweeperAI) (t : Sentence) (m : Finset Cell)
    (x : Cell) (ht : t ∈ s'.knowledge) (hm : t.known_safes = some m) (hx : x ∈ m) :
    x ∈ s'.saturate.safes :=
  Finset.mem_of_subset (knownSafesAll_subset_saturate s')
    (Finset.mem_of_subset (subset_knownSafesAll _ _ _ ht hm) hx)

/-- Claim C6: after the saturation pass of `add_knowledge`, every cell of
every scanned zero-count non-empty constraint has been added to `safes`,
and every cell of every scanned full-count constraint has been added to
`mines`. -/
theorem claim_C6 (s : MinesweeperAI) (cell : Cell) (count : ℤ) :
    ∀ t ∈ (MinesweeperAI.inferSubsets (s.addMoveAndSentence cell count)).knowledge,
      (t.count = 0 ∧ t.cells.Nonempty → t.cells ⊆ (s.add_knowledge cell count).safes) ∧
        ((t.cells.card : ℤ) = t.count ∧ 0 < t.count →
          t.cells ⊆ (s.add_knowledge cell count).mines) := by
  intro t ht
  constructor
  · rintro ⟨h0, hne⟩
    have hks : t.known_safes = some t.cells := by
      unfold Sentence.known_safes
      rw [if_pos ⟨h0, Finset.card_pos.mpr hne⟩]
    unfold MinesweeperAI.add_knowledge
    exact (subset_knownSafesAll _ t _ ht hks).trans (knownSafesAll_subset_saturate _)
  · rintro ⟨hcard, hpos⟩
    have hkm : t.known_mines = some t.cells := by
      unfold Sentence.known_mines
      rw [if_pos ⟨hcard, hpos⟩]
    unfold MinesweeperAI.add_knowledge
    exact (subset_knownMinesAll _ t _ ht hkm).trans (knownMinesAll_subset_saturate _)

/-- Witness for claim C6: on a 2x2 board, `add_knowledge((0,0), 0)` marks
all three neighbours safe and `add_knowledge((0,0), 3)` marks all three
neighbours as mines. -/
theorem claim_C6_witness :
    ({(0, 1), (1, 0), (1, 1)} : Finset Cell) ⊆
        ((MinesweeperAI.init 2 2).add_knowledge (0, 0) 0).safes ∧
      ({(0, 1), (1, 0), (1, 1)} : Finset Cell) ⊆
        ((MinesweeperAI.init 2 2).add_knowledge (0, 0) 3).mines :=
  ⟨(claim_C6 (MinesweeperAI.init 2 2) (0, 0) 0 ⟨{(0, 1), (1, 0), (1, 1)}, 0⟩
      (by decide)).1 (by decide),
   (claim_C6 (MinesweeperAI.init 2 2) (0, 0) 3 ⟨{(0, 1), (1, 0), (1, 1)}, 3⟩
      (by decide)).2 (by decide)⟩

/-- For indices `i < j` into the scanned knowledge base with
`K[i] != K[j]` and `K[i].cells ⊆ K[j].cells`, the derived candidate ends
up in `newKnowledge` unless it was already present in `K`. -/
theorem newKnowledge_complete (K : List Sentence) (i j : ℕ) (hij : i < j)
    (hj : j < K.length)
    (hne : K.getD i ⟨∅, 0⟩ ≠ K.getD j ⟨∅, 0⟩)
    (hsub : (K.getD i ⟨∅, 0⟩).cells ⊆ (K.getD j ⟨∅, 0⟩).cells) :
    (⟨(K.getD j ⟨∅, 0⟩).cells \ (K.getD i ⟨∅, 0⟩).cells,
        (K.getD j ⟨∅, 0⟩).count - (K.getD i ⟨∅, 0⟩).count⟩ : Sentence) ∈
      MinesweeperAI.newKnowledge K ∨
      (⟨(K.getD j ⟨∅, 0⟩).cells \ (K.getD i ⟨∅, 0⟩).cells,
        (K.getD j ⟨∅, 0⟩).count - (K.getD i ⟨∅, 0⟩).count⟩ : Sentence) ∈ K := by
  have hpair : ∀ (i' j' : ℕ) (acc : List Sentence),
      (⟨(K.getD j ⟨∅, 0⟩).cells \ (K.getD i ⟨∅, 0⟩).cells,
        (K.getD j ⟨∅, 0⟩).count - (K.getD i ⟨∅, 0⟩).count⟩ : Sentence) ∈ acc ∨
        (⟨(K.getD j ⟨∅, 0⟩).cells \ (K.getD i ⟨∅, 0⟩).cells,
          (K.getD j ⟨∅, 0⟩).count - (K.getD i ⟨∅, 0⟩).count⟩ : Sentence) ∈ K →
      (⟨(K.getD j ⟨∅, 0⟩).cells \ (K.getD i ⟨∅, 0⟩).cells,
        (K.getD j ⟨∅, 0⟩).count - (K.getD i ⟨∅, 0⟩).count⟩ : Sentence) ∈
          MinesweeperAI.considerPair K i' j' acc ∨
        (⟨(K.getD j ⟨∅, 0⟩).cells \ (K.getD i ⟨∅, 0⟩).cells,
          (K.getD j ⟨∅, 0⟩).count - (K.getD i ⟨∅, 0⟩).count⟩ : Sentence) ∈ K := by
    intro i' j' acc h
    rcases h with h | h
    · exact Or.inl (considerPair_mono _ _ _ _ _ h)
    · exact Or.inr h
  have hest : ∀ acc : List Sentence,
      (⟨(K.getD j ⟨∅, 0⟩).cells \ (K.getD i ⟨∅, 0⟩).cells,
        (K.getD j ⟨∅, 0⟩).count - (K.getD i ⟨∅, 0⟩).count⟩ : Sentence) ∈
          MinesweeperAI.considerPair K i j acc ∨
        (⟨(K.getD j ⟨∅, 0⟩).cells \ (K.getD i ⟨∅, 0⟩).cells,
          (K.getD j ⟨∅, 0⟩).count - (K.getD i ⟨∅, 0⟩).count⟩ : Sentence) ∈ K := by
    intro acc
    unfold MinesweeperAI.considerPair
    dsimp only
    rw [if_pos ⟨hne, hsub⟩]
    split
    case isTrue h => exact Or.inl (List.mem_append_right _ (List.mem_singleton_self _))
    case isFalse h =>
      push_neg at h
      by_cases hacc : (⟨(K.getD j ⟨∅, 0⟩).cells \ (K.getD i ⟨∅, 0⟩).cells,
          (K.getD j ⟨∅, 0⟩).count - (K.getD i ⟨∅, 0⟩).count⟩ : Sentence) ∈ acc
      · exact Or.inl hacc
      · exact Or.inr (h hacc)
  unfold MinesweeperAI.newKnowledge
  refine foldl_reach
    (fun acc i' => (List.range' (i' + 1) (K.length - (i' + 1))).foldl
      (fun acc2 j' => MinesweeperAI.considerPair K i' j' acc2) acc)
    (fun acc =>
      (⟨(K.getD j ⟨∅, 0⟩).cells \ (K.getD i ⟨∅, 0⟩).cells,
        (K.getD j ⟨∅, 0⟩).count - (K.getD i ⟨∅, 0⟩).count⟩ : Sentence) ∈ acc ∨
        (⟨(K.getD j ⟨∅, 0⟩).cells \ (K.getD i ⟨∅, 0⟩).cells,
          (K.getD j ⟨∅, 0⟩).count - (K.getD i ⟨∅, 0⟩).count⟩ : Sentence) ∈ K)
    (fun a b hb => foldl_keep _ _ _ (fun a2 b2 _ hb2 => hpair b b2 a2 hb2) a hb)
    i
    (fun a => foldl_reach _ _ (fun a2 b2 hb2 => hpair i b2 a2 hb2) j (hest)
      (List.range' (i + 1) (K.length - (i + 1))) a
      (List.mem_range'_1.mpr ⟨by omega, by omega⟩))
    (List.range K.length) [] (List.mem_range.mpr (by omega))

/-- Claim C1, amended: the subset elimination fires only for pairs whose
subset constraint `A` occurs at an earlier list index than the superset
`B`; for such a pair the candidate `(B.cells - A.cells, B.count - A.count)`
is in the knowledge base after the inference step, and when that candidate
is `{c4} = 1` the saturation pass leaves `{c4} = 1` in the knowledge base
or puts `c4` into `mines`. -/
theorem claim_C1_amended (s : MinesweeperAI) (cell : Cell) (count : ℤ)
    (i j : ℕ) (A B : Sentence) (c4 : Cell)
    (hij : i < j)
    (hj : j < (s.addMoveAndSentence cell count).knowledge.length)
    (hA : (s.addMoveAndSentence cell count).knowledge.getD i ⟨∅, 0⟩ = A)
    (hB : (s.addMoveAndSentence cell count).knowledge.getD j ⟨∅, 0⟩ = B)
    (hne : A ≠ B) (hsub : A.cells ⊆ B.cells) :
    (⟨B.cells \ A.cells, B.count - A.count⟩ : Sentence) ∈
        (MinesweeperAI.inferSubsets (s.addMoveAndSentence cell count)).knowledge ∧
      (B.cells \ A.cells = {c4} → B.count - A.count = 1 →
        (⟨{c4}, 1⟩ : Sentence) ∈ (s.add_knowledge cell count).knowledge ∨
          c4 ∈ (s.add_knowledge cell count).mines) := by
  rw [← hA, ← hB] at hne hsub
  have h1 := newKnowledge_complete _ i j hij hj hne hsub
  rw [hA, hB] at h1
  have hmem : (⟨B.cells \ A.cells, B.count - A.count⟩ : Sentence) ∈
      (MinesweeperAI.inferSubsets (s.addMoveAndSentence cell count)).knowledge := by
    rw [MinesweeperAI.inferSubsets_eq]
    rcases h1 with h | h
    · exact List.mem_append_right _ h
    · exact List.mem_append_left _ h
  refine ⟨hmem, ?_⟩
  intro hc4 hcnt
  have hsent : (⟨B.cells \ A.cells, B.count - A.count⟩ : Sentence) = ⟨{c4}, 1⟩ := by
    rw [hc4, hcnt]
  rw [hsent] at hmem
  have hkm : (⟨{c4}, 1⟩ : Sentence).known_mines = some {c4} := by
    simp [Sentence.known_mines]
  have hmine : c4 ∈ (s.add_knowledge cell count).mines := by
    rw [MinesweeperAI.add_knowledge_eq]
    generalize MinesweeperAI.inferSubsets (s.addMoveAndSentence cell count) = S at hmem ⊢
    exact mem_saturate_mines_of_known S ⟨{c4}, 1⟩ {c4} c4 hmem hkm
      (Finset.mem_singleton_self c4)
  exact Or.inr hmine

/-- Claim C1 as stated is false: with the superset `B = {c1,c2,c3,c4} = 2`
listed before the subset `A = {c1,c2,c3} = 1`, an `add_knowledge` call
derives nothing, so neither `{c4} = 1` appears in the knowledge base nor
`c4` in `mines`. -/
theorem claim_C1_counterexample :
    (⟨{(0, 1), (1, 0), (1, 1)}, 1⟩ : Sentence) ∈ supersetFirstState.knowledge ∧
      (⟨{(0, 1), (1, 0), (1, 1), (2, 2)}, 2⟩ : Sentence) ∈ supersetFirstState.knowledge ∧
      ¬ ((⟨{(2, 2)}, 1⟩ : Sentence) ∈
            (supersetFirstState.add_knowledge (0, 0) 0).knowledge ∨
          ((2, 2) : Cell) ∈ (supersetFirstState.add_knowledge (0, 0) 0).mines) := by
  decide

/-- Witness for the amended claim C1 on the subset-first knowledge base. -/
theorem claim_C1_witness :
    (⟨{(2, 2)}, 1⟩ : Sentence) ∈
        (MinesweeperAI.inferSubsets (subsetFirstState.addMoveAndSentence (0, 0) 0)).knowledge ∧
      ((⟨{(2, 2)}, 1⟩ : Sentence) ∈ (subsetFirstState.add_knowledge (0, 0) 0).knowledge ∨
        ((2, 2) : Cell) ∈ (subsetFirstState.add_knowledge (0, 0) 0).mines) := by
  have h := claim_C1_amended subsetFirstState (0, 0) 0 0 1
    ⟨{(0, 1), (1, 0), (1, 1)}, 1⟩ ⟨{(0, 1), (1, 0), (1, 1), (2, 2)}, 2⟩ (2, 2)
    (by decide) (by decide) (by decide) (by decide) (by decide) (by decide)
  refine ⟨?_, h.2 (by decide) (by decide)⟩
  have he : (⟨(⟨{(0, 1), (1, 0), (1, 1), (2, 2)}, 2⟩ : Sentence).cells \
        (⟨{(0, 1), (1, 0), (1, 1)}, 1⟩ : Sentence).cells,
      (⟨{(0, 1), (1, 0), (1, 1), (2, 2)}, 2⟩ : Sentence).count -
        (⟨{(0, 1), (1, 0), (1, 1)}, 1⟩ : Sentence).count⟩ : Sentence) =
      ⟨{(2, 2)}, 1⟩ := by decide
  exact he ▸ h.1

/-- The code's 3x3-block neighbour collection equals the specification's
"8 grid-adjacent neighbours, in bounds, not already played" set. -/
theorem neighbourCells_eq_specNeighbours (s : MinesweeperAI) (cell : Cell) :
    MinesweeperAI.neighbourCells { s with moves_made := insert cell s.moves_made } cell =
      specNeighbours s cell := by
  ext x
  simp only [MinesweeperAI.neighbourCells, specNeighbours, Finset.mem_filter,
    Finset.mem_product, Finset.mem_Icc, Finset.mem_insert, not_or]
  obtain ⟨x1, x2⟩ := x
  obtain ⟨c1, c2⟩ := cell
  constructor
  · rintro ⟨⟨⟨ha1, ha2⟩, hb1, hb2⟩, hh1, hh2, hh3, hh4, hne, hmm⟩
    simp only [Prod.mk.injEq, not_and] at hne
    refine ⟨?_, by omega, by omega, by omega, by omega, hmm⟩
    simp only [adjacent8, Finset.mem_insert, Finset.mem_singleton, Prod.mk.injEq]
    have hx1 : x1 = c1 - 1 ∨ x1 = c1 ∨ x1 = c1 + 1 := by omega
    have hx2 : x2 = c2 - 1 ∨ x2 = c2 ∨ x2 = c2 + 1 := by omega
    rcases hx1 with h | h | h <;> rcases hx2 with h' | h' | h' <;> subst h <;> subst h' <;>
      simp_all
  · rintro ⟨hadj, hh1, hh2, hh3, hh4, hmm⟩
    simp only [adjacent8, Finset.mem_insert, Finset.mem_singleton, Prod.mk.injEq] at hadj
    refine ⟨⟨⟨?_, ?_⟩, ?_, ?_⟩, by omega, by omega, by omega, by omega, ?_, hmm⟩ <;>
      [skip; skip; skip; skip;
       simp only [Prod.mk.injEq, not_and]] <;>
      rcases hadj with ⟨h, h'⟩ | ⟨h, h'⟩ | ⟨h, h'⟩ | ⟨h, h'⟩ | ⟨h, h'⟩ | ⟨h, h'⟩ |
        ⟨h, h'⟩ | ⟨h, h'⟩ <;> omega

/-- Claim C5: `add_knowledge` records the revealed cell in `moves_made` and
in `safes`; the neighbour set it builds is exactly the in-bounds
grid-adjacent neighbours not yet played; and the sentence-creation phase
appends the sentence `(neighbours, count)` if and only if that set is
non-empty. -/
theorem claim_C5 (s : MinesweeperAI) (cell : Cell) (count : ℤ) :
    (s.add_knowledge cell count).moves_made = insert cell s.moves_made ∧
      cell ∈ (s.add_knowledge cell count).safes ∧
      MinesweeperAI.neighbourCells { s with moves_made := insert cell s.moves_made } cell =
        specNeighbours s cell ∧
      (s.addMoveAndSentence cell count).knowledge =
        s.knowledge.map (Sentence.mark_safe · cell) ++
          (if 0 < (specNeighbours s cell).card then [⟨specNeighbours s cell, count⟩]
           else []) := by
  refine ⟨MinesweeperAI.add_knowledge_moves_made s cell count, ?_, ?_, ?_⟩
  · exact Finset.mem_of_subset (MinesweeperAI.add_knowledge_safes_mono s cell count)
      (Finset.mem_insert_self cell s.safes)
  · exact neighbourCells_eq_specNeighbours s cell
  · rw [MinesweeperAI.addMoveAndSentence_eq]
    rw [neighbourCells_eq_specNeighbours s cell]

/-- Claim C10: in every reachable engine state, every revealed cell is
known safe. -/
theorem claim_C10 (s : MinesweeperAI) (h : Reachable s) : s.moves_made ⊆ s.safes := by
  induction h with
  | init height width => exact Finset.Subset.refl _
  | mark_safe s c _ ih => exact Finset.Subset.trans ih (Finset.subset_insert _ _)
  | mark_mine s c _ ih => exact ih
  | add_knowledge s c n _ ih =>
    rw [MinesweeperAI.add_knowledge_moves_made]
    exact Finset.Subset.trans (Finset.insert_subset_insert c ih)
      (MinesweeperAI.add_knowledge_safes_mono s c n)

/-- Witness for claim C10 at a concrete reachable state. -/
theorem claim_C10_witness :
    ((MinesweeperAI.init 2 2).mark_mine (0, 0)).moves_made ⊆
      ((MinesweeperAI.init 2 2).mark_mine (0, 0)).safes :=
  claim_C10 _ (Reachable.mark_mine _ _ (Reachable.init 2 2))

/-- Claim C7: `make_safe_move` returns `None` exactly when no known-safe
unplayed cell exists, and any returned cell is known safe and not yet
played; the function reads but never writes the state. -/
theorem claim_C7 (s : MinesweeperAI) :
    (s.make_safe_move = none ↔ s.safes \ s.moves_made = ∅) ∧
      (∀ c, s.make_safe_move = some c → c ∈ s.safes ∧ c ∉ s.moves_made) := by
  unfold MinesweeperAI.make_safe_move
  by_cases hD : (s.safes \ s.moves_made).card = 0
  · rw [if_pos hD]
    refine ⟨⟨fun _ => Finset.card_eq_zero.mp hD, fun _ => rfl⟩, ?_⟩
    intro c hc
    cases hc
  · rw [if_neg hD]
    have hne : (s.safes \ s.moves_made).Nonempty :=
      Finset.card_pos.mp (Nat.pos_of_ne_zero hD)
    constructor
    · constructor
      · intro h
        rw [List.head?_eq_none_iff] at h
        obtain ⟨x, hx⟩ := hne
        have := (mem_cellsList _ x).mpr hx
        rw [h] at this
        cases this
      · intro h
        rw [h] at hD
        simp at hD
    · intro c hc
      cases hl : cellsList (s.safes \ s.moves_made) with
      | nil =>
        rw [hl] at hc
        cases hc
      | cons y ys =>
        rw [hl] at hc
        simp only [List.head?_cons, Option.some.injEq] at hc
        subst hc
        have hy : y ∈ cellsList (s.safes \ s.moves_made) := by
          rw [hl]
          exact List.mem_cons_self _ _
        have := (mem_cellsList _ y).mp hy
        exact ⟨(Finset.mem_sdiff.mp this).1, (Finset.mem_sdiff.mp this).2⟩

/-- Witness for claim C7 at a concrete state with one safe unplayed cell. -/
theorem claim_C7_witness :
    safeAvailableState.make_safe_move = some (0, 0) ∧
      ((0, 0) : Cell) ∈ safeAvailableState.safes ∧
      ((0, 0) : Cell) ∉ safeAvailableState.moves_made :=
  ⟨by decide, (claim_C7 safeAvailableState).2 (0, 0) (by decide)⟩

/-- Claim C8: `make_random_move` only returns board positions outside
`moves_made` and `mines`, and returns `None` exactly when `moves_made`
and `mines` together cover the whole board; it reads but never writes the
state. -/
theorem claim_C8 (s : MinesweeperAI) :
    (∀ c, s.make_random_move = some c →
        c ∈ s.allMoves ∧ c ∉ s.moves_made ∧ c ∉ s.mines) ∧
      (s.make_random_move = none ↔ s.allMoves ⊆ s.moves_made ∪ s.mines) := by
  unfold MinesweeperAI.make_random_move
  have hsd : (s.allMoves \ s.moves_made) \ s.mines = s.allMoves \ (s.moves_made ∪ s.mines) :=
    sdiff_sdiff _ _ _
  by_cases hD : ((s.allMoves \ s.moves_made) \ s.mines).card = 0
  · rw [if_pos hD]
    have hempty : s.allMoves \ (s.moves_made ∪ s.mines) = ∅ := by
      rw [← hsd]
      exact Finset.card_eq_zero.mp hD
    constructor
    · intro c hc
      cases hc
    · exact ⟨fun _ => Finset.sdiff_eq_empty_iff_subset.mp hempty, fun _ => rfl⟩
  · rw [if_neg hD]
    have hne : ((s.allMoves \ s.moves_made) \ s.mines).Nonempty :=
      Finset.card_pos.mp (Nat.pos_of_ne_zero hD)
    constructor
    · intro c hc
      cases hl : cellsList ((s.allMoves \ s.moves_made) \ s.mines) with
      | nil =>
        rw [hl] at hc
        cases hc
      | cons y ys =>
        rw [hl] at hc
        simp only [List.head?_cons, Option.some.injEq] at hc
        subst hc
        have hy : y ∈ cellsList ((s.allMoves \ s.moves_made) \ s.mines) := by
          rw [hl]
          exact List.mem_cons_self _ _
        have hmem := (mem_cellsList _ y).mp hy
        rw [hsd] at hmem
        have h1 := Finset.mem_sdiff.mp hmem
        have h2 := h1.2
        rw [Finset.mem_union, not_or] at h2
        exact ⟨h1.1, h2.1, h2.2⟩
    · constructor
      · intro h
        rw [List.head?_eq_none_iff] at h
        obtain ⟨x, hx⟩ := hne
        have := (mem_cellsList _ x).mpr hx
        rw [h] at this
        cases this
      · intro h
        exfalso
        obtain ⟨x, hx⟩ := hne
        rw [hsd] at hx
        exact (Finset.mem_sdiff.mp hx).2 (h (Finset.mem_sdiff.mp hx).1)

/-- Witness for claim C8 on a fresh 1x1-board engine. -/
theorem claim_C8_witness :
    (MinesweeperAI.init 1 1).make_random_move = some (0, 0) ∧
      ((0, 0) : Cell) ∈ (MinesweeperAI.init 1 1).allMoves ∧
      ((0, 0) : Cell) ∉ (MinesweeperAI.init 1 1).moves_made ∧
      ((0, 0) : Cell) ∉ (MinesweeperAI.init 1 1).mines :=
  ⟨by decide, (claim_C8 (MinesweeperAI.init 1 1)).1 (0, 0) (by decide)⟩

/-- Marking a non-mine cell safe preserves satisfaction of a sentence. -/
theorem satBy_mark_safe {M : Finset Cell} {t : Sentence} {c : Cell}
    (hc : c ∉ M) (h : SatBy M t) : SatBy M (t.mark_safe c) := by
  unfold SatBy Sentence.mark_safe at *
  split
  case isTrue hin =>
    have heq : t.cells.erase c ∩ M = t.cells ∩ M := by
      ext x
      simp only [Finset.mem_inter, Finset.mem_erase]
      constructor
      · rintro ⟨⟨_, h1⟩, h2⟩
        exact ⟨h1, h2⟩
      · rintro ⟨h1, h2⟩
        refine ⟨⟨?_, h1⟩, h2⟩
        rintro rfl
        exact hc h2
    show ((t.cells.erase c ∩ M).card : ℤ) = t.count
    rw [heq]
    exact h
  case isFalse => exact h

/-- Marking a mine cell as a mine preserves satisfaction of a sentence. -/
theorem satBy_mark_mine {M : Finset Cell} {t : Sentence} {c : Cell}
    (hc : c ∈ M) (h : SatBy M t) : SatBy M (t.mark_mine c) := by
  unfold SatBy Sentence.mark_mine at *
  split
  case isTrue hin =>
    have hcm : c ∈ t.cells ∩ M := Finset.mem_inter.mpr ⟨hin, hc⟩
    have heq : t.cells.erase c ∩ M = (t.cells ∩ M).erase c := by
      ext x
      simp only [Finset.mem_inter, Finset.mem_erase]
      tauto
    have hcard := Finset.card_erase_of_mem hcm
    have hpos : 0 < (t.cells ∩ M).card := Finset.card_pos.mpr ⟨c, hcm⟩
    show ((t.cells.erase c ∩ M).card : ℤ) = t.count - 1
    rw [heq, hcard]
    omega
  case isFalse => exact h

/-- The subset-difference of two satisfied sentences is satisfied. -/
theorem satBy_diff {M : Finset Cell} {A B : Sentence}
    (hA : SatBy M A) (hB : SatBy M B) (hsub : A.cells ⊆ B.cells) :
    SatBy M ⟨B.cells \ A.cells, B.count - A.count⟩ := by
  unfold SatBy at *
  show (((B.cells \ A.cells) ∩ M).card : ℤ) = B.count - A.count
  have hset : (B.cells \ A.cells) ∩ M = (B.cells ∩ M) \ (A.cells ∩ M) := by
    ext x
    simp only [Finset.mem_inter, Finset.mem_sdiff]
    tauto
  have hsub2 : A.cells ∩ M ⊆ B.cells ∩ M :=
    Finset.inter_subset_inter hsub (Finset.Subset.refl M)
  rw [hset, Finset.card_sdiff hsub2]
  have hle := Finset.card_le_card hsub2
  omega

/-- A satisfied full-count sentence reports only actual mines. -/
theorem known_mines_subset_M {M : Finset Cell} {t : Sentence} {m : Finset Cell}
    (h : SatBy M t) (hm : t.known_mines = some m) : m ⊆ M := by
  unfold Sentence.known_mines at hm
  split at hm
  case isTrue hcond =>
    injection hm with hm'
    subst hm'
    unfold SatBy at h
    have hcards : (t.cells ∩ M).card = t.cells.card := by omega
    have heq := Finset.eq_of_subset_of_card_le Finset.inter_subset_left
      (le_of_eq hcards.symm)
    exact Finset.inter_eq_left.mp heq
  case isFalse => cases hm

/-- A satisfied zero-count sentence reports only non-mines. -/
theorem known_safes_disjoint_M {M : Finset Cell} {t : Sentence} {m : Finset Cell}
    (h : SatBy M t) (hm : t.known_safes = some m) : ∀ x ∈ m, x ∉ M := by
  unfold Sentence.known_safes at hm
  split at hm
  case isTrue hcond =>
    injection hm with hm'
    subst hm'
    unfold SatBy at h
    have hcard : (t.cells ∩ M).card = 0 := by omega
    have hemp := Finset.card_eq_zero.mp hcard
    intro x hx hxM
    have hmem : x ∈ t.cells ∩ M := Finset.mem_inter.mpr ⟨hx, hxM⟩
    rw [hemp] at hmem
    cases Finset.not_mem_empty x hmem
  case isFalse => cases hm

/-- Every collected known mine comes from some sentence's `known_mines`. -/
theorem mem_knownMinesAll (K : List Sentence) (x : Cell)
    (hx : x ∈ MinesweeperAI.knownMinesAll K) :
    ∃ t ∈ K, ∃ m, t.known_mines = some m ∧ x ∈ m := by
  unfold MinesweeperAI.knownMinesAll at hx
  have main : ∀ (L : List Sentence) (acc : Finset Cell),
      x ∈ L.foldl (fun acc t =>
        match t.known_mines with
        | some m => acc ∪ m
        | none => acc) acc →
      x ∈ acc ∨ ∃ t ∈ L, ∃ m, t.known_mines = some m ∧ x ∈ m := by
    intro L
    induction L with
    | nil => intro acc h; exact Or.inl h
    | cons t ts ih =>
      intro acc h
      simp only [List.foldl_cons] at h
      rcases ih _ h with h' | ⟨t', ht', m, hm, hxm⟩
      · cases hkm : t.known_mines with
        | none =>
          rw [hkm] at h'
          exact Or.inl h'
        | some m =>
          rw [hkm] at h'
          rcases Finset.mem_union.mp h' with h'' | h''
          · exact Or.inl h''
          · exact Or.inr ⟨t, List.mem_cons_self _ _, m, hkm, h''⟩
      · exact Or.inr ⟨t', List.mem_cons_of_mem _ ht', m, hm, hxm⟩
  rcases main K ∅ hx with h | h
  · cases Finset.not_mem_empty x h
  · exact h

/-- Every collected known safe comes from some sentence's `known_safes`. -/
theorem mem_knownSafesAll (K : List Sentence) (x : Cell)
    (hx : x ∈ MinesweeperAI.knownSafesAll K) :
    ∃ t ∈ K, ∃ m, t.known_safes = some m ∧ x ∈ m := by
  unfold MinesweeperAI.knownSafesAll at hx
  have main : ∀ (L : List Sentence) (acc : Finset Cell),
      x ∈ L.foldl (fun acc t =>
        match t.known_safes with
        | some m => acc ∪ m
        | none => acc) acc →
      x ∈ acc ∨ ∃ t ∈ L, ∃ m, t.known_safes = some m ∧ x ∈ m := by
    intro L
    induction L with
    | nil => intro acc h; exact Or.inl h
    | cons t ts ih =>
      intro acc h
      simp only [List.foldl_cons] at h
      rcases ih _ h with h' | ⟨t', ht', m, hm, hxm⟩
      · cases hkm : t.known_safes with
        | none =>
          rw [hkm] at h'
          exact Or.inl h'
        | some m =>
          rw [hkm] at h'
          rcases Finset.mem_union.mp h' with h'' | h''
          · exact Or.inl h''
          · exact Or.inr ⟨t, List.mem_cons_self _ _, m, hkm, h''⟩
      · exact Or.inr ⟨t', List.mem_cons_of_mem _ ht', m, hm, hxm⟩
  rcases main K ∅ hx with h | h
  · cases Finset.not_mem_empty x h
  · exact h

/-- `mark_safe` on a non-mine preserves consistency. -/
theorem consistent_mark_safe {M : Finset Cell} {s : MinesweeperAI} {c : Cell}
    (h : Consistent M s) (hc : c ∉ M) : Consistent M (s.mark_safe c) := by
  obtain ⟨hk, hm, hs, hmm⟩ := h
  refine ⟨?_, hm, ?_, hmm⟩
  · intro t ht
    rcases List.mem_map.mp ht with ⟨t0, ht0, rfl⟩
    exact satBy_mark_safe hc (hk t0 ht0)
  · rw [show (s.mark_safe c).safes = insert c s.safes from rfl,
      Finset.disjoint_insert_left]
    exact ⟨hc, hs⟩

/-- `mark_mine` on an actual mine preserves consistency. -/
theorem consistent_mark_mine {M : Finset Cell} {s : MinesweeperAI} {c : Cell}
    (h : Consistent M s) (hc : c ∈ M) : Consistent M (s.mark_mine c) := by
  obtain ⟨hk, hm, hs, hmm⟩ := h
  refine ⟨?_, ?_, hs, hmm⟩
  · intro t ht
    rcases List.mem_map.mp ht with ⟨t0, ht0, rfl⟩
    exact satBy_mark_mine hc (hk t0 ht0)
  · rw [show (s.mark_mine c).mines = insert c s.mines from rfl]
    exact Finset.insert_subset hc hm

/-- The cells of the sentence built for a revealed non-mine cell contain
exactly the actual mines counted by `Minesweeper.nearby_mines`. -/
theorem neighbourCells_inter_eq (M : Finset Cell) (s : MinesweeperAI) (c : Cell)
    (hmm : Disjoint s.moves_made M) :
    MinesweeperAI.neighbourCells { s with moves_made := insert c s.moves_made } c ∩ M =
      ((Finset.Icc (c.1 - 1) (c.1 + 1) ×ˢ Finset.Icc (c.2 - 1) (c.2 + 1)).filter
        (fun pq => pq ≠ c ∧ 0 ≤ pq.1 ∧ pq.1 < s.height ∧ 0 ≤ pq.2 ∧ pq.2 < s.width ∧
          pq ∈ M)) := by
  ext x
  simp only [MinesweeperAI.neighbourCells, Finset.mem_inter, Finset.mem_filter,
    Finset.mem_product, Finset.mem_Icc, Finset.mem_insert, not_or]
  constructor
  · rintro ⟨⟨hblock, h1, h2, h3, h4, hne, hmv⟩, hM⟩
    exact ⟨hblock, hne, by omega, h2, by omega, h4, hM⟩
  · rintro ⟨hblock, hne, h1, h2, h3, h4, hM⟩
    refine ⟨⟨hblock, by omega, h2, by omega, h4, hne, ?_⟩, hM⟩
    exact fun hx => (Finset.disjoint_left.mp hmm hx) hM

/-- The sentence-creation phase of `add_knowledge` preserves consistency
when the revealed cell is not a mine and the count is the board's true
neighbour mine-count. -/
theorem consistent_addMoveAndSentence {M : Finset Cell} {s : MinesweeperAI} {c : Cell}
    {count : ℤ} (h : Consistent M s) (hc : c ∉ M)
    (hcount : count = (Minesweeper.nearby_mines M s.height s.width c : ℤ)) :
    Consistent M (s.addMoveAndSentence c count) := by
  obtain ⟨hk, hm, hs, hmm⟩ := h
  rw [MinesweeperAI.addMoveAndSentence_eq]
  refine ⟨?_, hm, ?_, ?_⟩
  · intro t ht
    rcases List.mem_append.mp ht with h1 | h2
    · rcases List.mem_map.mp h1 with ⟨t0, ht0, rfl⟩
      exact satBy_mark_safe hc (hk t0 ht0)
    · split at h2
      case isTrue =>
        rcases List.mem_singleton.mp h2 with rfl
        unfold SatBy
        rw [hcount]
        show ((MinesweeperAI.neighbourCells
          { s with moves_made := insert c s.moves_made } c ∩ M).card : ℤ) =
          (Minesweeper.nearby_mines M s.height s.width c : ℤ)
        rw [neighbourCells_inter_eq M s c hmm]
        rfl
      case isFalse => cases h2
  · show Disjoint (insert c s.safes) M
    rw [Finset.disjoint_insert_left]
    exact ⟨hc, hs⟩
  · show Disjoint (insert c s.moves_made) M
    rw [Finset.disjoint_insert_left]
    exact ⟨hc, hmm⟩

/-- The subset-inference step preserves consistency. -/
theorem consistent_inferSubsets {M : Finset Cell} {s : MinesweeperAI}
    (h : Consistent M s) : Consistent M s.inferSubsets := by
  obtain ⟨hk, hm, hs, hmm⟩ := h
  rw [MinesweeperAI.inferSubsets_eq]
  refine ⟨?_, hm, hs, hmm⟩
  intro t ht
  rcases List.mem_append.mp ht with h1 | h2
  · exact hk t h1
  · rcases mem_newKnowledge _ t h2 with ⟨A, B, hA, hB, hsub, _, rfl⟩
    exact satBy_diff (hk A hA) (hk B hB) hsub

/-- The saturation pass preserves consistency. -/
theorem consistent_saturate {M : Finset Cell} {s : MinesweeperAI}
    (h : Consistent M s) : Consistent M s.saturate := by
  rw [MinesweeperAI.saturate_eq]
  have hkm_sub : ∀ x ∈ cellsList (MinesweeperAI.knownMinesAll s.knowledge), x ∈ M := by
    intro x hx
    rcases mem_knownMinesAll _ x ((mem_cellsList _ x).mp hx) with ⟨t, ht, m, hmx, hxm⟩
    exact known_mines_subset_M (h.1 t ht) hmx hxm
  have hks_not : ∀ x ∈ cellsList (MinesweeperAI.knownSafesAll s.knowledge), x ∉ M := by
    intro x hx
    rcases mem_knownSafesAll _ x ((mem_cellsList _ x).mp hx) with ⟨t, ht, m, hmx, hxm⟩
    exact known_safes_disjoint_M (h.1 t ht) hmx x hxm
  refine foldl_keep MinesweeperAI.mark_safe (Consistent M) _
    (fun a b hb hcons => consistent_mark_safe hcons (hks_not b hb)) _ ?_
  exact foldl_keep MinesweeperAI.mark_mine (Consistent M) _
    (fun a b hb hcons => consistent_mark_mine hcons (hkm_sub b hb)) _ h

/-- A consistent `add_knowledge` call preserves consistency. -/
theorem consistent_add_knowledge {M : Finset Cell} {s : MinesweeperAI} {c : Cell}
    {n : ℤ} (h : Consistent M s) (hc : c ∉ M)
    (hn : n = (Minesweeper.nearby_mines M s.height s.width c : ℤ)) :
    Consistent M (s.add_knowledge c n) := by
  rw [MinesweeperAI.add_knowledge_eq]
  exact consistent_saturate (consistent_inferSubsets (consistent_addMoveAndSentence h hc hn))

/-- Every state reachable by calls consistent with the mine set `M` is
consistent with `M`. -/
theorem consReachable_consistent {M : Finset Cell} {s : MinesweeperAI}
    (h : ConsReachable M s) : Consistent M s := by
  induction h with
  | init height width =>
    exact ⟨fun t ht => absurd ht (List.not_mem_nil t), Finset.empty_subset M,
      Finset.disjoint_empty_left M, Finset.disjoint_empty_left M⟩
  | mark_safe s c _ hc ih => exact consistent_mark_safe ih hc
  | mark_mine s c _ hc ih => exact consistent_mark_mine ih hc
  | add_knowledge s c n _ hc hn ih => exact consistent_add_knowledge ih hc hn

/-- Claim C3, amended: `safes` and `mines` stay disjoint under every
sequence of operations that is consistent with a fixed mine set `M`
(`mark_mine` only on mines, `mark_safe` only on non-mines, and
`add_knowledge` only on a non-mine cell with the board's true neighbour
count). -/
theorem claim_C3_amended (M : Finset Cell) (s : MinesweeperAI)
    (h : ConsReachable M s) : Disjoint s.safes s.mines := by
  obtain ⟨_, hm, hs, _⟩ := consReachable_consistent h
  rw [Finset.disjoint_left]
  intro a ha hmn
  exact (Finset.disjoint_left.mp hs ha) (hm hmn)

/-- Claim C3 as stated is false: `mark_mine((0,0))` followed by
`mark_safe((0,0))` puts `(0,0)` into both sets. -/
theorem claim_C3_counterexample :
    ¬ Disjoint conflictState.safes conflictState.mines := fun h =>
  Finset.disjoint_left.mp h
    (show ((0, 0) : Cell) ∈ conflictState.safes by decide)
    (show ((0, 0) : Cell) ∈ conflictState.mines by decide)

/-- Witness for the amended claim C3 at a concrete consistent state. -/
theorem claim_C3_witness :
    Disjoint ((MinesweeperAI.init 2 2).mark_mine (1, 1)).safes
      ((MinesweeperAI.init 2 2).mark_mine (1, 1)).mines :=
  claim_C3_amended {(1, 1)} _
    (ConsReachable.mark_mine _ _ (ConsReachable.init 2 2) (by decide))

/-- Claim C4, amended: under every sequence of operations consistent with
a fixed mine set `M`, every constraint in the knowledge base satisfies
`0 ≤ count ≤ |cells|`. -/
theorem claim_C4_amended (M : Finset Cell) (s : MinesweeperAI)
    (h : ConsReachable M s) :
    ∀ t ∈ s.knowledge, 0 ≤ t.count ∧ t.count ≤ (t.cells.card : ℤ) := by
  intro t ht
  have hsat := (consReachable_consistent h).1 t ht
  unfold SatBy at hsat
  have hle : (t.cells ∩ M).card ≤ t.cells.card :=
    Finset.card_le_card Finset.inter_subset_left
  omega

/-- Claim C4 as stated is false: the inconsistent call
`add_knowledge((0,0), 5)` on a 2x2 board creates a constraint with three
cells and count five. -/
theorem claim_C4_counterexample :
    ∃ t ∈ overCountState.knowledge, ¬ (0 ≤ t.count ∧ t.count ≤ (t.cells.card : ℤ)) := by
  decide

/-- Witness for the amended claim C4 at a concrete consistent state. -/
theorem claim_C4_witness :
    0 ≤ (⟨{(0, 1), (1, 0), (1, 1)}, 1⟩ : Sentence).count ∧
      (⟨{(0, 1), (1, 0), (1, 1)}, 1⟩ : Sentence).count ≤
        ((⟨{(0, 1), (1, 0), (1, 1)}, 1⟩ : Sentence).cells.card : ℤ) :=
  claim_C4_amended {(1, 1)} _
    (ConsReachable.add_knowledge _ (0, 0) 1 (ConsReachable.init 2 2) (by decide) (by decide))
    ⟨{(0, 1), (1, 0), (1, 1)}, 1⟩ (by decide)
